import Mathlib

/-!
# Verification of the coroutine task runtime (`cpp_coroutine_test`)

Shallow embedding of the repository's three C++ coroutine demo programs:

* the recursive `factorial` coroutine (src/unnamed/part_000 and the first
  program of src/unnamed/part_001): `Promise` with a `previous` back-link,
  `PreviousAwaiter` (return protocol), `CalleeAwaiter` (call protocol);
* the `Promise<T>`/`Task<T>`/`Loop` program (second program of
  src/unnamed/part_001): exception capture and the timer priority queue;
* the `RepeatAwaiter` / `work()` program and the `world()`/`hello()` program
  (src/code/simple-task.cc).

Coroutine handles are modelled as indices into a frame table; symmetric
transfer is modelled as a trampoline (`run`) that keeps resuming the handle
returned by each `await_suspend` until a no-op handle is returned, at which
point control returns to the top-level driver that called `resume()`.
The C++ `int` slots are modelled as `Int` kept in the 32-bit range: every
arithmetic operation of the bodies goes through `wrap32`, the
two's-complement reduction (signed overflow is undefined behavior in C++;
wraparound is what the common implementations produce and is the behavior
modelled here).
-/

namespace CoroTest

/-- A `std::coroutine_handle<>` as stored in `Promise::previous`:
either the `std::noop_coroutine()` sentinel or a handle to a live frame
(identified by its index in the frame table).  The modelled programs never
store a null handle in `previous` (its initializer is `noop_coroutine()`),
so nullability is a constant, see `Handle.isNull`. -/
inductive Handle where
  | noop : Handle
  | frame : Nat → Handle
deriving DecidableEq, Repr

/-- `bool(handle)` (the `previous &&` null test in
`PreviousAwaiter::await_suspend`): both `noop_coroutine()` and real frame
handles are non-null, and the modelled programs never produce a null
`previous`, so this is constantly `false`. -/
def Handle.isNull : Handle → Bool
  | _ => false

/-- Where a factorial coroutine frame is suspended:
at `initial_suspend` (`created`), at the `co_await sub_task` point of the
body (`awaiting c`, with `c` the callee frame), or at `final_suspend`
(`final`). -/
inductive FrameSt where
  | created : FrameSt
  | awaiting : Nat → FrameSt
  | final : FrameSt
deriving DecidableEq, Repr

/-- One coroutine frame of the recursive `factorial` program: the argument
`n` of `factorial(int n)`, the suspension point, `Promise::_value`
(a `std::optional<int>`) and `Promise::previous`.  The `int` slots hold
`Int` values produced by `wrap32`, so they stay in the 32-bit
two's-complement range. -/
structure FrameData where
  arg : Int
  st : FrameSt
  value : Option Int
  previous : Handle
deriving DecidableEq, Repr

/-- The frame table: all coroutine frames currently allocated, indexed by
`Nat` handles, plus the next fresh index. -/
@[ext] structure MachineState where
  frames : Nat → Option FrameData
  next : Nat

/-- A freshly created frame (`factorial(a)` right after `initial_suspend`):
body not yet run, `_value` empty, `previous` initialized to
`std::noop_coroutine()`. -/
def newFrame (a : Int) : FrameData :=
  { arg := a, st := FrameSt.created, value := none, previous := Handle.noop }

/-- 32-bit two's-complement reduction: the result of an `int` arithmetic
operation, the representative of the value in `[-2^31, 2^31)`.  Signed
overflow is undefined behavior in C++; wraparound is the modelled
behavior. -/
def wrap32 (x : Int) : Int := (x + 2147483648) % 4294967296 - 2147483648

/-- Overwrite the frame stored at index `d`. -/
def setFrame (s : MachineState) (d : Nat) (f : FrameData) : MachineState :=
  { s with frames := fun j => if j = d then some f else s.frames j }

/-- Apply `g` to the frame at index `d` (no-op if the index is dead). -/
def updateFrame (s : MachineState) (d : Nat) (g : FrameData → FrameData) :
    MachineState :=
  match s.frames d with
  | some f => setFrame s d (g f)
  | none => s

/-- `coroutine.destroy()`: remove the frame from the table. -/
def destroyFrame (s : MachineState) (d : Nat) : MachineState :=
  { s with frames := fun j => if j = d then none else s.frames j }

/-- `handle.done()`: true exactly when the coroutine is suspended at its
final suspend point; `noop_coroutine().done()` is `false`. -/
def handleDone (s : MachineState) : Handle → Bool
  | Handle.noop => false
  | Handle.frame d =>
    match s.frames d with
    | some f => decide (f.st = FrameSt.final)
    | none => false

/-- The branch condition `previous && !previous.done()` of
`PreviousAwaiter::await_suspend`. -/
def prevCond (s : MachineState) (previous : Handle) : Bool :=
  !previous.isNull && !handleDone s previous

/-- `PreviousAwaiter::await_suspend` (src/unnamed/part_000 lines 28-39,
src/unnamed/part_001 lines 11-19 and 226-240, src/code/simple-task.cc lines
310-321): if `previous && !previous.done()` return `previous` (symmetric
transfer up the chain), else return `std::noop_coroutine()`.  The function
is total — it is `noexcept` and can never raise. -/
def prevAwaiterSuspend (s : MachineState) (previous : Handle) : Handle :=
  if prevCond s previous then previous else Handle.noop

/-- `Promise::get_value()` / `Task::value()`: read `_value` from the frame's
promise. -/
def getValue (s : MachineState) (d : Nat) : Option Int :=
  match s.frames d with
  | some f => f.value
  | none => none

/-- `CalleeAwaiter::await_resume` (src/unnamed/part_000 lines 228-233,
src/unnamed/part_001 lines 111-116): `val.value_or(0)` — the callee's
stored value, defaulting to `0` when the slot is empty.  Total: it never
raises. -/
def awaitResumeVal (v : Option Int) : Int := v.getD 0

/-- `CalleeAwaiter::await_suspend` (src/unnamed/part_000 lines 212-226,
src/unnamed/part_001 lines 95-109): unconditionally assign
`callee.promise().previous = caller`, then return the callee handle
(symmetric transfer down). There is no set-once check and no completion
check. -/
def calleeAwaiterSuspend (s : MachineState) (callee : Nat) (caller : Handle) :
    MachineState × Handle :=
  (updateFrame s callee (fun f => { f with previous := caller }),
   Handle.frame callee)

/-- One resumption segment of a `factorial` frame: runs the body from its
current suspension point to the next suspension point, returning the updated
frame table and the handle produced by the suspension's `await_suspend`
(the handle the C++ runtime transfers to next; `noop` returns control to the
driver of the top-level `resume()`).

Body (src/unnamed/part_000 lines 264-281, src/unnamed/part_001 147-164):
```
Task factorial(int n) {
  if (n <= 1) co_return 1;
  Task sub_task = factorial(n - 1);
  int sub_result = co_await sub_task;
  co_return n * sub_result;
}
```
`co_return` stores via `return_value`, then local `sub_task` is destroyed
(its `~Task` destroys the callee frame), then `final_suspend` returns
`PreviousAwaiter{previous}`. The `int` subtraction `n - 1` and the `int`
multiplication `n * sub_result` are 32-bit operations and go through
`wrap32` (the multiplication overflows from `n = 13` on).  Resuming a dead
or already-final frame is UB in C++; those cases are modelled as inert and
are never exercised. -/
def stepFrame (s : MachineState) (d : Nat) : MachineState × Handle :=
  match s.frames d with
  | none => (s, Handle.noop)
  | some f =>
    match f.st with
    | FrameSt.final => (s, Handle.noop)
    | FrameSt.created =>
      if f.arg ≤ 1 then
        -- co_return 1; then final_suspend → PreviousAwaiter{previous}
        let s1 := setFrame s d { f with st := FrameSt.final, value := some 1 }
        (s1, prevAwaiterSuspend s1 f.previous)
      else
        -- Task sub_task = factorial(n - 1): fresh suspended frame;
        -- co_await sub_task: await_ready() = false, then CalleeAwaiter::await_suspend
        let c := s.next
        let s1 : MachineState :=
          { frames := fun j => if j = c then some (newFrame (wrap32 (f.arg - 1))) else s.frames j,
            next := s.next + 1 }
        let s2 := setFrame s1 d { f with st := FrameSt.awaiting c }
        calleeAwaiterSuspend s2 c (Handle.frame d)
    | FrameSt.awaiting c =>
      -- CalleeAwaiter::await_resume reads the callee value; co_return n * sub_result;
      -- ~Task() of sub_task destroys the callee frame; final_suspend → PreviousAwaiter
      let sub := awaitResumeVal (getValue s c)
      let s1 := setFrame s d { f with st := FrameSt.final, value := some (wrap32 (f.arg * sub)) }
      let s2 := destroyFrame s1 c
      (s2, prevAwaiterSuspend s2 f.previous)

/-- The trampoline realizing symmetric transfer inside one top-level
`resume()` call: keep resuming the handle returned by the last
`await_suspend`; a `noop` handle does nothing and returns control to the
caller of `resume()`.  `fuel` bounds the number of transfers. -/
def run (fuel : Nat) (s : MachineState) (h : Handle) : MachineState :=
  match h, fuel with
  | Handle.noop, _ => s
  | Handle.frame _, 0 => s
  | Handle.frame d, fuel' + 1 =>
    let p := stepFrame s d
    run fuel' p.1 p.2

/-- `Task task = factorial(n)` in `main`: one suspended frame, nothing else
allocated. -/
def initState (n : Int) : MachineState :=
  { frames := fun j => if j = 0 then some (newFrame n) else none, next := 1 }

/-- The single `task.coroutine.resume()` of `main`, with enough fuel for the
whole descent and ascent of the chain. -/
def resumeOnce (n : Int) : MachineState :=
  run (2 * n.toNat) (initState n) (Handle.frame 0)

/-- Mathematical factorial on the integer argument (`n!`). -/
def ifact (m : Int) : Int := (Nat.factorial m.toNat : Int)

theorem run_noop (fuel : Nat) (s : MachineState) : run fuel s Handle.noop = s := by
  cases fuel <;> rfl

theorem run_frame_succ (fuel : Nat) (s : MachineState) (d : Nat) :
    run (fuel + 1) s (Handle.frame d) = run fuel (stepFrame s d).1 (stepFrame s d).2 := rfl

/-! ## The reachable configurations of a single `resume()` on `factorial(n)`

During the one top-level resume the chain passes through a descent phase
(frames `0..d` allocated, frame `j` holds argument `n - j`, frames above the
current one suspended at their `co_await`, the deepest frame fresh) and an
ascent phase (callers still awaiting below, the deepest live frame final,
frames deeper than it already destroyed by `~Task`). -/

/-- The `previous` link of the frame at depth `j`: the caller frame at
depth `j - 1`, or the noop sentinel for the top-level frame. -/
def chainPrev : Nat → Handle
  | 0 => Handle.noop
  | k + 1 => Handle.frame k

/-- A frame at depth `j` suspended at its `co_await sub_task` point. -/
def awaitFrame (n : Int) (j : Nat) : FrameData :=
  { arg := n - j, st := FrameSt.awaiting (j + 1), value := none, previous := chainPrev j }

/-- A frame at depth `d` created but not yet started. -/
def createdFrame (n : Int) (d : Nat) : FrameData :=
  { arg := n - d, st := FrameSt.created, value := none, previous := chainPrev d }

/-- A frame at depth `k` that has completed with the factorial of its
argument. -/
def finalFrame (n : Int) (k : Nat) : FrameData :=
  { arg := n - k, st := FrameSt.final, value := some (ifact (n - k)), previous := chainPrev k }

/-- Descent configuration: frames `0..d-1` awaiting, frame `d` fresh. -/
def descConfig (n : Int) (d : Nat) : MachineState :=
  { frames := fun j =>
      if j < d then some (awaitFrame n j)
      else if j = d then some (createdFrame n d)
      else none,
    next := d + 1 }

/-- Ascent configuration: frames `0..k-1` awaiting, frame `k` final, deeper
frames already destroyed.  `D` is the depth the descent reached (only the
fresh-index counter remembers it). -/
def ascConfig (n : Int) (D k : Nat) : MachineState :=
  { frames := fun j =>
      if j < k then some (awaitFrame n j)
      else if j = k then some (finalFrame n k)
      else none,
    next := D + 1 }

theorem initState_eq_descConfig (n : Int) : initState n = descConfig n 0 := by
  unfold initState descConfig
  ext j
  · by_cases h0 : j = 0 <;>
      simp [h0, newFrame, createdFrame, chainPrev]
  · rfl

theorem ifact_succ (m : Int) (h : 1 ≤ m) : ifact m = m * ifact (m - 1) := by
  unfold ifact
  have h0 : m.toNat = (m - 1).toNat + 1 := by omega
  rw [h0, Nat.factorial_succ]
  push_cast
  have h1 : ((m - 1).toNat : Int) = m - 1 := by omega
  rw [h1]
  ring

/-- Descent step: a fresh frame with argument at least 2 creates its callee
and transfers down into it. -/
theorem stepFrame_desc (n : Int) (d : Nat) (h : (d : Int) + 2 ≤ n)
    (hn : n < 2147483648) :
    stepFrame (descConfig n d) d = (descConfig n (d + 1), Handle.frame (d + 1)) := by
  have hfr : (descConfig n d).frames d = some (createdFrame n d) := by
    simp [descConfig]
  have harg : ¬ ((n : Int) - (d : Int) ≤ 1) := by omega
  unfold stepFrame
  rw [hfr]
  simp only [createdFrame]
  rw [if_neg harg]
  simp only [calleeAwaiterSuspend, updateFrame, setFrame, descConfig, Nat.succ_ne_self,
    if_true, if_false, ite_true, ite_false]
  rw [Prod.mk.injEq]
  refine ⟨MachineState.ext ?_ rfl, rfl⟩
  funext j
  dsimp only
  · rcases Nat.lt_trichotomy j d with hj | hj | hj
    · have e1 : ¬ j = d + 1 := by omega
      have e2 : ¬ j = d := by omega
      have e3 : j < d + 1 := by omega
      rw [if_neg e1, if_neg e2, if_neg e1, if_pos hj, if_pos e3]
    · subst hj
      have e1 : ¬ (j = j + 1) := by omega
      have e2 : j < j + 1 := by omega
      rw [if_neg e1, if_pos rfl, if_pos e2]
      rfl
    · rcases Nat.lt_or_ge (d + 1) j with hj1 | hj1
      · have e1 : ¬ j = d + 1 := by omega
        have e2 : ¬ j = d := by omega
        have e3 : ¬ j < d := by omega
        have e4 : ¬ j < d + 1 := by omega
        rw [if_neg e1, if_neg e2, if_neg e1, if_neg e3, if_neg e2, if_neg e4, if_neg e1]
      · have e0 : j = d + 1 := by omega
        subst e0
        have e1 : ¬ (d + 1 < d + 1) := by omega
        rw [if_pos rfl, if_neg e1, if_pos rfl]
        simp only [newFrame, createdFrame, chainPrev, Option.some.injEq, FrameData.mk.injEq,
          and_true, true_and]
        unfold wrap32
        push_cast
        omega

theorem ifact_of_le_one (m : Int) (h : m ≤ 1) : ifact m = 1 := by
  unfold ifact
  have h0 : m.toNat = 0 ∨ m.toNat = 1 := by omega
  rcases h0 with h1 | h1 <;> simp [h1, Nat.factorial]

theorem ifact_nonneg (m : Int) : 0 ≤ ifact m := by
  unfold ifact
  exact Int.natCast_nonneg _

/-- Up to `12!` the factorial fits a 32-bit `int`; `13!` does not. -/
theorem ifact_lt_intMax (m : Int) (h : m ≤ 12) : ifact m < 2147483648 := by
  unfold ifact
  have h1 : m.toNat ≤ 12 := by omega
  have h2 : Nat.factorial m.toNat ≤ Nat.factorial 12 := Nat.factorial_le h1
  have h3 : Nat.factorial 12 = 479001600 := by decide
  omega

/-- The return protocol hands the attached continuation back when the
completing frame sits on top of a chain of awaiting callers (or the noop
sentinel at the top). -/
theorem prevAwaiterSuspend_chain (n : Int) (D k : Nat) :
    prevAwaiterSuspend (ascConfig n D k) (chainPrev k) = chainPrev k := by
  cases k with
  | zero => rfl
  | succ m =>
    have hdone : handleDone (ascConfig n D (m + 1)) (Handle.frame m) = false := by
      simp [handleDone, ascConfig, awaitFrame, Nat.lt_succ_self]
    simp [prevAwaiterSuspend, prevCond, chainPrev, Handle.isNull, hdone]

/-- Base step: the deepest frame (argument at most 1) stores 1, completes,
and the return protocol hands back its caller (or the noop sentinel). -/
theorem stepFrame_base (n : Int) (D : Nat) (h : n - (D : Int) ≤ 1) :
    stepFrame (descConfig n D) D = (ascConfig n D D, chainPrev D) := by
  have hfr : (descConfig n D).frames D = some (createdFrame n D) := by
    simp [descConfig]
  unfold stepFrame
  rw [hfr]
  simp only [createdFrame]
  rw [if_pos h]
  have hstate :
      (setFrame (descConfig n D) D
        { arg := n - (D : Int), st := FrameSt.final, value := some 1, previous := chainPrev D })
      = ascConfig n D D := by
    refine MachineState.ext ?_ rfl
    funext j
    dsimp only [setFrame, descConfig, ascConfig]
    by_cases hj : j = D
    · subst hj
      rw [if_pos rfl, if_neg (lt_irrefl j), if_pos rfl]
      simp only [finalFrame, Option.some.injEq, FrameData.mk.injEq, true_and, and_true]
      rw [ifact_of_le_one _ h]
    · rw [if_neg hj]
      rcases Nat.lt_or_ge j D with hj1 | hj1
      · rw [if_pos hj1, if_pos hj1]
      · have hj2 : ¬ j < D := by omega
        rw [if_neg hj2, if_neg hj, if_neg hj2, if_neg hj]
  rw [hstate, prevAwaiterSuspend_chain]

/-- Ascent step: an awaiting caller reads its completed callee's value,
multiplies, completes (its `~Task` destroying the callee frame), and the
return protocol hands back its own caller. -/
theorem stepFrame_asc (n : Int) (D k : Nat) (h : (k : Int) + 2 ≤ n)
    (hn : n ≤ 12) :
    stepFrame (ascConfig n D (k + 1)) k = (ascConfig n D k, chainPrev k) := by
  have hfr : (ascConfig n D (k + 1)).frames k = some (awaitFrame n k) := by
    simp [ascConfig, Nat.lt_succ_self]
  have hval : getValue (ascConfig n D (k + 1)) (k + 1) = some (ifact (n - (k + 1 : Nat))) := by
    simp [getValue, ascConfig, finalFrame]
  unfold stepFrame
  rw [hfr]
  simp only [awaitFrame]
  rw [hval]
  have hstate :
      destroyFrame
        (setFrame (ascConfig n D (k + 1)) k
          { arg := n - (k : Int), st := FrameSt.final,
            value := some (wrap32 ((n - (k : Int)) * awaitResumeVal (some (ifact (n - (k + 1 : Nat)))))),
            previous := chainPrev k })
        (k + 1)
      = ascConfig n D k := by
    refine MachineState.ext ?_ rfl
    funext j
    dsimp only [destroyFrame, setFrame, ascConfig]
    by_cases hj : j = k + 1
    · subst hj
      have e1 : ¬ (k + 1 < k) := by omega
      have e2 : ¬ (k + 1 = k) := by omega
      rw [if_pos rfl, if_neg e1, if_neg e2]
    · rw [if_neg hj]
      by_cases hj2 : j = k
      · subst hj2
        rw [if_pos rfl, if_neg (lt_irrefl j), if_pos rfl]
        simp only [finalFrame, Option.some.injEq, FrameData.mk.injEq, true_and, and_true]
        have harith : ifact (n - (j : Int)) = (n - (j : Int)) * ifact (n - (j : Int) - 1) :=
          ifact_succ _ (by omega)
        have hcast : (n : Int) - ((j + 1 : Nat) : Int) = n - (j : Int) - 1 := by
          push_cast; ring
        have hwrap : wrap32 (ifact (n - (j : Int))) = ifact (n - (j : Int)) := by
          have hnn := ifact_nonneg (n - (j : Int))
          have hlt := ifact_lt_intMax (n - (j : Int)) (by omega)
          unfold wrap32
          omega
        rw [awaitResumeVal, Option.getD, hcast, ← harith, hwrap]
      · rw [if_neg hj2]
        rcases Nat.lt_or_ge j k with hj3 | hj3
        · have hj4 : j < k + 1 := by omega
          rw [if_pos hj4, if_pos hj3]
        · have hj4 : ¬ j < k + 1 := by omega
          have hj5 : ¬ j < k := by omega
          rw [if_neg hj4, if_neg hj, if_neg hj5, if_neg hj2]
  rw [hstate, prevAwaiterSuspend_chain]

/-- The ascent: resuming the caller of the just-completed frame `k + 1`
propagates results all the way back up to the top frame. -/
theorem run_asc (n : Int) (D : Nat) (hn : n ≤ 12) :
    ∀ (k f : Nat), (k : Int) + 2 ≤ n →
      run (k + 1 + f) (ascConfig n D (k + 1)) (Handle.frame k) = ascConfig n D 0 := by
  intro k
  induction k with
  | zero =>
    intro f h
    rw [show (0 + 1 + f) = f + 1 from by omega, run_frame_succ, stepFrame_asc n D 0 h hn]
    exact run_noop f _
  | succ m ih =>
    intro f h
    rw [show (m + 1 + 1 + f) = (m + 1 + f) + 1 from by omega, run_frame_succ,
      stepFrame_asc n D (m + 1) h hn]
    exact ih f (by omega)

/-- The descent followed by the ascent: from any descent configuration the
trampoline reaches the fully-completed top configuration. -/
theorem run_desc (n : Int) (D : Nat) (hD : (D : Int) = n - 1) (hn : n ≤ 12) :
    ∀ (j d f : Nat), d + j = D →
      run (j + 1 + D + f) (descConfig n d) (Handle.frame d) = ascConfig n D 0 := by
  intro j
  induction j with
  | zero =>
    intro d f hd
    have hd0 : d = D := by omega
    subst hd0
    rw [show (0 + 1 + d + f) = (d + f) + 1 from by omega, run_frame_succ,
      stepFrame_base n d (by omega)]
    cases d with
    | zero => exact run_noop _ _
    | succ m => exact run_asc n (m + 1) hn m f (by omega)
  | succ i ih =>
    intro d f hd
    rw [show (i + 1 + 1 + D + f) = (i + 1 + D + f) + 1 from by omega, run_frame_succ,
      stepFrame_desc n d (by omega) (by omega)]
    exact ih (d + 1) f (by omega)

/-- C1 (amended): for every `1 ≤ n ≤ 12` — the arguments whose factorial
fits a 32-bit `int` — a single top-level `resume()` on the task returned by
`factorial(n)` drives the entire chain of nested awaits down to the base
case and back up; afterwards the task's coroutine is `done()` and `value()`
holds `n!`.  (`resumeOnce` is `main`'s one `task.coroutine.resume()` call;
`getValue` is `Task::value()`.)  From `n = 13` on the multiplication
`n * sub_result` overflows `int`, see `factorial_overflow_counterexample`. -/
theorem factorial_single_resume (n : Int) (h : 1 ≤ n) (h12 : n ≤ 12) :
    handleDone (resumeOnce n) (Handle.frame 0) = true ∧
    getValue (resumeOnce n) 0 = some (ifact n) := by
  have hD : (((n - 1).toNat : Nat) : Int) = n - 1 := by omega
  set D := (n - 1).toNat with hDdef
  have hfuel : 2 * n.toNat = D + 1 + D + 1 := by omega
  have hrun : resumeOnce n = ascConfig n D 0 := by
    rw [resumeOnce, initState_eq_descConfig, hfuel]
    exact run_desc n D hD h12 D 0 1 (by omega)
  rw [hrun]
  constructor
  · simp [handleDone, ascConfig, finalFrame]
  · simp [getValue, ascConfig, finalFrame]

/-- Witness for C1 (amended) at `n = 5`: one `resume()` completes the task
with value `5! = 120`. -/
theorem factorial_single_resume_witness :
    ((1 : Int) ≤ 5 ∧ (5 : Int) ≤ 12) ∧
    (handleDone (resumeOnce 5) (Handle.frame 0) = true ∧
     getValue (resumeOnce 5) 0 = some (ifact 5)) ∧
    ifact 5 = 120 :=
  ⟨⟨by norm_num, by norm_num⟩, factorial_single_resume 5 (by norm_num) (by norm_num),
   by decide⟩

/-- C1 counterexample: at `n = 13` the single `resume()` still completes the
task, but the final `int` multiplication `13 * 12!` overflows 32-bit `int`
(undefined behavior; two's-complement wraparound modelled), so `value()`
holds the wrapped product `1932053504`, not `13! = 6227020800` — the
original unbounded claim fails. -/
theorem factorial_overflow_counterexample :
    getValue (resumeOnce 13) 0 = some 1932053504 ∧
    ifact 13 = 6227020800 ∧
    getValue (resumeOnce 13) 0 ≠ some (ifact 13) := by
  refine ⟨rfl, by decide, by decide⟩

/-! ## C2: the return protocol (`PreviousAwaiter::await_suspend`) -/

/-- C2: when a frame completes, `PreviousAwaiter::await_suspend` transfers
control into the attached continuation exactly when a real continuation is
attached and that continuation is not itself complete; in every other case
(noop sentinel, or continuation already complete) control goes back to the
driver via a noop handle.  The second conjunct records that the step always
produces a handle — it is a total `noexcept` function and never raises. -/
theorem return_protocol_transfer (s : MachineState) (prev : Handle) :
    (∀ d : Nat, prevAwaiterSuspend s prev = Handle.frame d ↔
       (prev = Handle.frame d ∧ handleDone s (Handle.frame d) = false)) ∧
    (prevAwaiterSuspend s prev = Handle.noop ∨
     ∃ d : Nat, prevAwaiterSuspend s prev = Handle.frame d) := by
  constructor
  · intro d
    cases prev with
    | noop =>
      simp [prevAwaiterSuspend, prevCond, Handle.isNull, handleDone]
    | frame e =>
      by_cases hdone : handleDone s (Handle.frame e) = true
      · simp [prevAwaiterSuspend, prevCond, Handle.isNull, hdone]
        intro he
        subst he
        simp [hdone]
      · have hdone2 : handleDone s (Handle.frame e) = false := by
          cases h : handleDone s (Handle.frame e)
          · rfl
          · exact absurd h hdone
        simp [prevAwaiterSuspend, prevCond, Handle.isNull, hdone2]
        intro he
        subst he
        exact hdone2
  · cases h : prevAwaiterSuspend s prev with
    | noop => exact Or.inl rfl
    | frame d => exact Or.inr ⟨d, rfl⟩

/-! ## C9: the noop sentinel continuation -/

/-- C9: a frame whose continuation was never attached holds the
`noop_coroutine()` sentinel (`newFrame`'s `previous`); the sentinel is
non-null and reports `done() = false`, so the completion step takes the
resume-the-previous-coroutine branch (`prevCond` is true) yet returns the
noop handle; resuming the noop handle does nothing (`run` returns to the
driver immediately), which is exactly the result of the hand-to-scheduler
branch. -/
theorem noop_sentinel_behavior (a : Int) (s : MachineState) (fuel : Nat) :
    (newFrame a).previous = Handle.noop ∧
    Handle.isNull Handle.noop = false ∧
    handleDone s Handle.noop = false ∧
    prevCond s Handle.noop = true ∧
    prevAwaiterSuspend s Handle.noop = Handle.noop ∧
    run fuel s Handle.noop = s :=
  ⟨rfl, rfl, rfl, rfl, rfl, run_noop fuel s⟩

/-! ## C6: attaching a continuation -/

/-- C6 (amended): attaching a continuation via
`CalleeAwaiter::await_suspend` is an unconditional assignment to
`callee.promise().previous`: it succeeds and overwrites whatever
continuation was there before, whatever the frame's completion state, and
then transfers into the callee; no usage error is raised. -/
theorem attach_unconditional (s : MachineState) (c : Nat) (h : Handle)
    (f : FrameData) (hf : s.frames c = some f) :
    (calleeAwaiterSuspend s c h).1.frames c = some { f with previous := h } ∧
    (calleeAwaiterSuspend s c h).2 = Handle.frame c := by
  unfold calleeAwaiterSuspend updateFrame
  rw [hf]
  exact ⟨by simp [setFrame], rfl⟩

/-- Witness for C6 (amended) at a concrete state. -/
theorem attach_unconditional_witness :
    (initState 3).frames 0 = some (newFrame 3) ∧
    ((calleeAwaiterSuspend (initState 3) 0 (Handle.frame 9)).1.frames 0 =
        some { newFrame 3 with previous := Handle.frame 9 } ∧
      (calleeAwaiterSuspend (initState 3) 0 (Handle.frame 9)).2 = Handle.frame 0) :=
  ⟨rfl, attach_unconditional (initState 3) 0 (Handle.frame 9) (newFrame 3) rfl⟩

/-- A frame that already has an attached continuation (`frame 7`) and is
already complete — by C6 the attach step should reject this frame twice
over. -/
def attachedState : MachineState :=
  { frames := fun j =>
      if j = 5 then
        some { arg := 3, st := FrameSt.final, value := some 6, previous := Handle.frame 7 }
      else none,
    next := 8 }

/-- C6 counterexample: on a frame that is complete and already has a
continuation attached, `CalleeAwaiter::await_suspend` neither fails nor
preserves the old continuation — it silently overwrites `frame 7` with
`frame 9` and transfers into the (completed) callee, contradicting the
claimed set-once/usage-error behavior. -/
theorem attach_overwrites_counterexample :
    ((attachedState.frames 5).map FrameData.previous = some (Handle.frame 7)) ∧
    handleDone attachedState (Handle.frame 5) = true ∧
    (((calleeAwaiterSuspend attachedState 5 (Handle.frame 9)).1.frames 5).map
        FrameData.previous = some (Handle.frame 9)) ∧
    (calleeAwaiterSuspend attachedState 5 (Handle.frame 9)).2 = Handle.frame 5 := by
  refine ⟨rfl, rfl, rfl, rfl⟩

/-! ## C10: `await_resume` defaults an empty value slot to 0 -/

/-- `WorldTask::CalleeAwaiter::await_resume` (src/code/simple-task.cc lines
493-499): `callee.promise().value().value_or(0)`.  Same logic as the
recursive programs' `CalleeAwaiter::await_resume`; it is total — no error
path. -/
def worldCalleeResume (v : Option Int) : Int := v.getD 0

/-- C10: when the completed callee's value slot is empty, the await
expression evaluates to the default 0 — in the two recursive factorial
programs (`awaitResumeVal`) and in the world/hello program
(`worldCalleeResume`); neither raises or reports "no value". -/
theorem await_resume_default_zero :
    awaitResumeVal none = 0 ∧ worldCalleeResume none = 0 :=
  ⟨rfl, rfl⟩

/-! ## C3: what happens to an error raised inside a frame body

Two different `unhandled_exception` implementations exist in the sources:
the templated `Promise<T>` of the scheduler program stores the exception
(`exception = std::current_exception()`), while the promises of the other
three programs do `throw;`, re-raising immediately.  A C++ exception is
modelled as an abstract token; a computation that may raise is an
`Except Exc` value.  When a coroutine body's exception reaches the frame
boundary the compiler-generated handler calls
`promise.unhandled_exception()`; if that call itself throws, the exception
propagates out of `resume()`. -/

/-- An abstract C++ exception object. -/
structure Exc where
  code : Nat
deriving DecidableEq, Repr

/-- The promise state of the templated `Promise<T>` (second program of
src/unnamed/part_001, lines 256-287): value slot and exception slot. -/
structure PromiseT where
  value : Option Int
  exception : Option Exc
deriving DecidableEq, Repr

/-- `Promise<T>::unhandled_exception` (src/unnamed/part_001 line 265):
`exception = std::current_exception();` — store, do not re-raise. -/
def promiseTUnhandled (p : PromiseT) (e : Exc) : PromiseT :=
  { p with exception := some e }

/-- `Promise<T>::result` (src/unnamed/part_001 lines 275-280): if an
exception is stored, re-raise it; otherwise return the value slot. -/
def promiseTResult (p : PromiseT) : Except Exc (Option Int) :=
  match p.exception with
  | some e => Except.error e
  | none => Except.ok p.value

/-- `resume()` on a frame with the templated promise whose body raises `e`:
the compiler-generated handler calls `unhandled_exception`, which stores
the exception and returns normally; the coroutine proceeds to its final
suspend and `resume()` returns without raising. -/
def resumeRaisingT (p : PromiseT) (e : Exc) : Except Exc PromiseT :=
  Except.ok (promiseTUnhandled p e)

/-- `unhandled_exception() { throw; }` of the three other promises
(src/unnamed/part_000 line 124, src/unnamed/part_001 line 50,
src/code/simple-task.cc lines 92 and 350): re-raise the current exception
immediately. -/
def simpleUnhandled (e : Exc) : Except Exc Unit :=
  Except.error e

/-- `resume()` on a frame with one of the `throw;` promises whose body
raises `e`: the handler calls `unhandled_exception`, which re-raises, so
the exception propagates synchronously out of `resume()`. -/
def resumeRaisingSimple (e : Exc) : Except Exc Unit :=
  match simpleUnhandled e with
  | Except.error e2 => Except.error e2
  | Except.ok u => Except.ok u

/-- C3 counterexample: with the `Promise` types used by the factorial,
work and world/hello programs, an error raised in the frame body escapes
`resume()` synchronously — it is not captured and stored — contradicting
the claim that this holds for every frame body. -/
theorem resume_raises_synchronously :
    resumeRaisingSimple { code := 0 } = Except.error { code := 0 } := rfl

/-- C3 (amended): only frames using the templated `Promise<T>` of the
scheduler program capture the error at the frame boundary: `resume()`
returns normally with the exception stored, and `result()` re-raises
exactly that error lazily; the three other promise types re-raise inside
`unhandled_exception`, so the error propagates synchronously out of
`resume()`. -/
theorem exception_capture_templated (p : PromiseT) (e : Exc) :
    resumeRaisingT p e = Except.ok { p with exception := some e } ∧
    promiseTResult { p with exception := some e } = Except.error e ∧
    resumeRaisingSimple e = Except.error e :=
  ⟨rfl, rfl, rfl⟩

/-! ## C4: the `await_ready` short-circuit for a completed callee -/

/-- `WorldTask::CalleeAwaiter::await_ready` (src/code/simple-task.cc line
458): `callee ? callee.done() : false`.  The argument is the callee handle:
`none` models a null handle, `some b` a handle whose `done()` is `b`. -/
def worldCalleeReady (callee : Option Bool) : Bool :=
  match callee with
  | some done => done
  | none => false

/-- `CalleeAwaiter::await_ready` of the recursive factorial programs
(src/unnamed/part_000 line 86, src/unnamed/part_001 line 36): always
`false`. -/
def calleeAwaiterReady : Bool := false

/-- `Task<T>::Awaiter::await_ready` (src/unnamed/part_001 line 334): always
`false`. -/
def taskAwaiterReady : Bool := false

/-- A frame table holding a caller (frame 0, fresh) and a callee (frame 1)
that is already complete with value 7. -/
def completedCalleeState : MachineState :=
  { frames := fun j =>
      if j = 0 then some (newFrame 2)
      else if j = 1 then some { arg := 1, st := FrameSt.final, value := some 7,
                                previous := Handle.noop }
      else none,
    next := 2 }

/-- C4 counterexample: for the recursive programs' awaiters the callee
being already complete does not short-circuit: `await_ready` is `false`
regardless (so the caller suspends), and `await_suspend` still transfers
control into the completed callee frame — a completed frame is re-entered,
contradicting the claim for these awaiters. -/
theorem completed_callee_still_suspends :
    handleDone completedCalleeState (Handle.frame 1) = true ∧
    calleeAwaiterReady = false ∧
    taskAwaiterReady = false ∧
    (calleeAwaiterSuspend completedCalleeState 1 (Handle.frame 0)).2 = Handle.frame 1 :=
  ⟨rfl, rfl, rfl, rfl⟩

/-- C4 (amended): only `WorldTask::CalleeAwaiter` short-circuits — its
`await_ready` is true exactly when the callee handle is non-null and
already done (so no suspension happens and `await_resume` reads the stored
value immediately); the recursive programs' `CalleeAwaiter` and
`Task<T>::Awaiter` report not-ready unconditionally and would suspend and
transfer into the callee even when it is complete. -/
theorem await_ready_short_circuit :
    (∀ b : Bool, worldCalleeReady (some b) = b) ∧
    worldCalleeReady none = false ∧
    calleeAwaiterReady = false ∧
    taskAwaiterReady = false :=
  ⟨fun _ => rfl, rfl, rfl, rfl⟩

/-! ## C5: the `work()` frame driven through its yields

The `work()` coroutine (src/code/simple-task.cc lines 241-245) yields 1,
yields 2, then returns 3.  Its `Task::promise_type` is
`Promise<int, RepeatAwaiter>` (line 174), so each `co_yield` suspends into
a `RepeatAwaiter`, whose `await_suspend` immediately returns the same
coroutine handle when the coroutine is not done — symmetric transfer back
into the frame itself. -/

/-- Suspension points of the `work()` frame: initial suspend, the two
`co_yield` awaiters, and the final suspend. -/
inductive WorkPc where
  | start : WorkPc
  | yielded1 : WorkPc
  | yielded2 : WorkPc
  | finished : WorkPc
deriving DecidableEq, Repr

/-- The `work()` frame: suspension point plus `Promise::_value`. -/
structure WorkFrame where
  pc : WorkPc
  value : Option Int
deriving DecidableEq, Repr

/-- `coroutine.done()` for the work frame. -/
def workDone (w : WorkFrame) : Bool := decide (w.pc = WorkPc.finished)

/-- The handle returned by an `await_suspend` of the work program: either
the work coroutine itself or `noop_coroutine()`. -/
inductive WHandle where
  | noop : WHandle
  | work : WHandle
deriving DecidableEq, Repr

/-- `RepeatAwaiter::await_suspend` (src/code/simple-task.cc lines 27-38):
if the coroutine is not done, return its own handle (resume it
immediately); otherwise return `noop_coroutine()`. -/
def repeatAwaiterSuspend (w : WorkFrame) : WHandle :=
  if !workDone w then WHandle.work else WHandle.noop

/-- One segment of `work()` between suspension points.  Each `co_yield v`
runs `yield_value` (store `v`), suspends, and hands the `RepeatAwaiter` the
frame's handle; `co_return 3` runs `return_value` (store 3) and suspends at
`final_suspend` (`std::suspend_always`), returning control to the caller of
`resume()`.  Resuming a finished frame is UB and modelled as inert. -/
def workStep (w : WorkFrame) : WorkFrame × WHandle :=
  match w.pc with
  | WorkPc.start =>
    let w1 : WorkFrame := { pc := WorkPc.yielded1, value := some 1 }
    (w1, repeatAwaiterSuspend w1)
  | WorkPc.yielded1 =>
    let w1 : WorkFrame := { pc := WorkPc.yielded2, value := some 2 }
    (w1, repeatAwaiterSuspend w1)
  | WorkPc.yielded2 =>
    ({ pc := WorkPc.finished, value := some 3 }, WHandle.noop)
  | WorkPc.finished => (w, WHandle.noop)

/-- The trampoline inside one `resume()` call on the work frame. -/
def workRun (fuel : Nat) (w : WorkFrame) : WorkFrame :=
  match fuel with
  | 0 => w
  | fuel' + 1 =>
    let p := workStep w
    match p.2 with
    | WHandle.noop => p.1
    | WHandle.work => workRun fuel' p.1

/-- One `task.coroutine.resume()` on the work frame (at most three
segments can run before the final suspend). -/
def workResume (w : WorkFrame) : WorkFrame := workRun 4 w

/-- `work()` as created, suspended at `initial_suspend`. -/
def workInit : WorkFrame := { pc := WorkPc.start, value := none }

/-- C5 counterexample: because `work()`'s yields use `RepeatAwaiter`, the
very first `resume()` runs the body through both yields to completion:
afterwards `value()` is 3 (not the first yielded value 1) and the frame is
already done — contradicting "v1 after the first resume" and "isDone() is
false until after the third resume". -/
theorem single_resume_completes_work :
    workResume workInit = { pc := WorkPc.finished, value := some 3 } ∧
    workDone (workResume workInit) = true ∧
    (workResume workInit).value ≠ some 1 := by
  refine ⟨rfl, rfl, ?_⟩
  decide

/-- C5 (amended): with the code's `RepeatAwaiter` yield policy a single
`resume()` drives `work()` through both yields to completion: the body
stores v1 = 1, then v2 = 2, then v3 = 3 in exactly that order within that
one call (each yield's `RepeatAwaiter` immediately transfers back into the
frame because it is not yet done), and after the single resume `value()` is
3 and the frame is done, so `main`'s resume loop runs only once. -/
theorem work_repeat_awaiter_single_resume :
    workStep workInit = ({ pc := WorkPc.yielded1, value := some 1 }, WHandle.work) ∧
    workStep { pc := WorkPc.yielded1, value := some 1 } =
      ({ pc := WorkPc.yielded2, value := some 2 }, WHandle.work) ∧
    workStep { pc := WorkPc.yielded2, value := some 2 } =
      ({ pc := WorkPc.finished, value := some 3 }, WHandle.noop) ∧
    workResume workInit = { pc := WorkPc.finished, value := some 3 } ∧
    workDone (workResume workInit) = true :=
  ⟨rfl, rfl, rfl, rfl, rfl⟩

/-! ## C7: the timer structure of the `Loop` scheduler

`Loop` (src/unnamed/part_001 lines 361-385) keeps timers in
`std::priority_queue<TimerEntry, std::vector<TimerEntry>, std::greater<>>`,
with `TimerEntry::operator>` comparing only `expire_time`.  The
`priority_queue` is the binary heap of libstdc++: `push` is `push_back` +
`std::push_heap`, `pop` is `std::pop_heap` + `pop_back`, `top` is
`front()`; `__push_heap` sifts the new value up while the parent compares
greater, and `__adjust_heap` (used by `pop_heap`) walks the hole down
through the smaller child, handles a trailing single child of an
even-length heap, then sifts the displaced last value back up.  Those two
library algorithms are modelled verbatim below (the fuel arguments bound
the loops and are always sufficient). -/

/-- `Loop::TimerEntry` (src/unnamed/part_001 lines 365-372): expiry
timestamp and the frame handle to wake.  Time is modelled as `Nat`,
the handle as a `Nat` identifier. -/
structure TimerEntry where
  expire : Nat
  handle : Nat
deriving DecidableEq, Repr

/-- `TimerEntry::operator>` (src/unnamed/part_001 lines 369-371): compares
`expire_time` only — the handle and the insertion order play no part. -/
def timerGT (a b : TimerEntry) : Bool := decide (b.expire < a.expire)

/-- Element read of the underlying `std::vector` (all modelled accesses are
in bounds; the default is irrelevant). -/
def vget : List TimerEntry → Nat → TimerEntry
  | [], _ => { expire := 0, handle := 0 }
  | x :: _, 0 => x
  | _ :: xs, i + 1 => vget xs i

/-- Element write of the underlying `std::vector` (out of range writes do
not occur). -/
def vset : List TimerEntry → Nat → TimerEntry → List TimerEntry
  | [], _, _ => []
  | _ :: xs, 0, v => v :: xs
  | x :: xs, i + 1, v => x :: vset xs i v

/-- libstdc++ `std::__push_heap`: sift `value` up from `hole` toward `top`,
moving each greater parent down. -/
def pushHeapAux (c : List TimerEntry) (hole top : Nat) (value : TimerEntry) :
    Nat → List TimerEntry
  | 0 => vset c hole value
  | fuel + 1 =>
    let parent := (hole - 1) / 2
    if top < hole && timerGT (vget c parent) value then
      pushHeapAux (vset c hole (vget c parent)) parent top value fuel
    else vset c hole value

/-- `priority_queue::push` (`timers.push(...)` in `Loop::add_timer`):
`push_back` the entry, then `std::push_heap` over the whole vector. -/
def pqPush (c : List TimerEntry) (v : TimerEntry) : List TimerEntry :=
  pushHeapAux (c ++ [v]) c.length 0 v (c.length + 1)

/-- Main loop of libstdc++ `std::__adjust_heap`: while the hole has two
children, move the smaller child (the right one on ties) up into the hole
and descend into it.  Returns the new vector and the final hole index. -/
def adjustLoop (c : List TimerEntry) (hole len : Nat) :
    Nat → List TimerEntry × Nat
  | 0 => (c, hole)
  | fuel + 1 =>
    if hole < (len - 1) / 2 then
      let right := 2 * (hole + 1)
      let child := if timerGT (vget c right) (vget c (right - 1)) then right - 1 else right
      adjustLoop (vset c hole (vget c child)) child len fuel
    else (c, hole)

/-- libstdc++ `std::__adjust_heap`: run the main loop, handle the trailing
left-only child of an even-length heap, then `__push_heap` the displaced
value back up from the final hole. -/
def adjustHeap (c : List TimerEntry) (holeStart len : Nat) (value : TimerEntry) :
    List TimerEntry :=
  let p := adjustLoop c holeStart len len
  if len % 2 == 0 && p.2 == (len - 2) / 2 then
    let sc := 2 * (p.2 + 1)
    pushHeapAux (vset p.1 p.2 (vget p.1 (sc - 1))) (sc - 1) holeStart value len
  else
    pushHeapAux p.1 p.2 holeStart value len

/-- `priority_queue::pop`: `std::pop_heap` (move the last element aside,
move the root to the back, re-heapify the prefix with the displaced value)
followed by `pop_back`.  For a vector of length at most 1 `pop_heap` does
nothing and `pop_back` removes the only element. -/
def pqPop (c : List TimerEntry) : List TimerEntry :=
  if 1 < c.length then
    let value := vget c (c.length - 1)
    let c1 := vset c (c.length - 1) (vget c 0)
    (adjustHeap c1 0 (c.length - 1) value).dropLast
  else c.dropLast

/-- Draining the timer queue: repeatedly read `top()` (the front of the
vector) and `pop`, collecting the entries in the order they fire. -/
def pqPopAll : Nat → List TimerEntry → List TimerEntry
  | 0, _ => []
  | fuel + 1, c =>
    match c with
    | [] => []
    | t :: _ => t :: pqPopAll fuel (pqPop c)

/-- `Loop::add_timer` (src/unnamed/part_001 lines 381-384):
`timers.push(TimerEntry{time, handle})`. -/
def addTimer (timers : List TimerEntry) (time : Nat) (handle : Nat) :
    List TimerEntry :=
  pqPush timers { expire := time, handle := handle }

/-- Modelled from the spec: the scheduler's `run()` loop, which pops due
timer entries from the timer structure in order, is not present under
`src/` (the `Loop` only stores entries); the firing order is therefore the
pop order of the `std::priority_queue` itself. -/
def fireOrder (timers : List TimerEntry) : List Nat :=
  (pqPopAll timers.length timers).map TimerEntry.handle

/-- Four timers: handle 0 at time 0, then handles 1, 2, 3 all at time 1,
registered in that order. -/
def timersTieExample : List TimerEntry :=
  addTimer (addTimer (addTimer (addTimer [] 0 0) 1 1) 1 2) 1 3

/-- C7 counterexample: the `priority_queue` binary heap is not stable on
equal expiry times.  With handles 1, 2, 3 registered in that order, all
with expiry 1 (after an earlier timer 0), the entries fire in order
0, 2, 1, 3 — handle 2 fires before handle 1, so ties do not fire in
insertion order. -/
theorem timer_ties_not_stable :
    fireOrder timersTieExample = [0, 2, 1, 3] ∧
    fireOrder timersTieExample ≠ [0, 1, 2, 3] := by
  refine ⟨rfl, ?_⟩
  decide

/-! ### Vector access lemmas -/

theorem vset_length (l : List TimerEntry) (i : Nat) (v : TimerEntry) :
    (vset l i v).length = l.length := by
  induction l generalizing i with
  | nil => rfl
  | cons x xs ih =>
    cases i with
    | zero => rfl
    | succ j => simpa [vset] using ih j

theorem vget_vset_self (l : List TimerEntry) (i : Nat) (v : TimerEntry)
    (h : i < l.length) : vget (vset l i v) i = v := by
  induction l generalizing i with
  | nil => exact absurd h (by simp)
  | cons x xs ih =>
    cases i with
    | zero => rfl
    | succ j => exact ih j (by simpa using h)

theorem vget_vset_ne (l : List TimerEntry) (i j : Nat) (v : TimerEntry)
    (h : j ≠ i) : vget (vset l i v) j = vget l j := by
  induction l generalizing i j with
  | nil => rfl
  | cons x xs ih =>
    cases i with
    | zero =>
      cases j with
      | zero => exact absurd rfl h
      | succ g => rfl
    | succ i2 =>
      cases j with
      | zero => rfl
      | succ g => exact ih i2 g (fun e => h (by rw [e]))

theorem vget_mem (l : List TimerEntry) (i : Nat) (h : i < l.length) :
    vget l i ∈ l := by
  induction l generalizing i with
  | nil => exact absurd h (by simp)
  | cons x xs ih =>
    cases i with
    | zero => exact List.mem_cons_self _ _
    | succ j => exact List.mem_cons_of_mem _ (ih j (by simpa using h))

theorem mem_vset (l : List TimerEntry) (i : Nat) (v x : TimerEntry)
    (h : x ∈ vset l i v) : x ∈ l ∨ x = v := by
  induction l generalizing i with
  | nil => exact absurd h (by simp [vset])
  | cons y ys ih =>
    cases i with
    | zero =>
      rcases List.mem_cons.mp h with h1 | h1
      · exact Or.inr h1
      · exact Or.inl (List.mem_cons_of_mem _ h1)
    | succ j =>
      rcases List.mem_cons.mp h with h1 | h1
      · exact Or.inl (h1 ▸ List.mem_cons_self _ _)
      · rcases ih j h1 with h2 | h2
        · exact Or.inl (List.mem_cons_of_mem _ h2)
        · exact Or.inr h2

theorem vget_append_lt (l1 l2 : List TimerEntry) (i : Nat) (h : i < l1.length) :
    vget (l1 ++ l2) i = vget l1 i := by
  induction l1 generalizing i with
  | nil => exact absurd h (by simp)
  | cons x xs ih =>
    cases i with
    | zero => rfl
    | succ j => exact ih j (by simpa using h)

theorem vget_dropLast (l : List TimerEntry) (i : Nat) (h : i + 1 < l.length) :
    vget l.dropLast i = vget l i := by
  induction l generalizing i with
  | nil => rfl
  | cons x xs ih =>
    cases xs with
    | nil => exact absurd h (by simp)
    | cons y ys =>
      cases i with
      | zero => rfl
      | succ j => exact ih j (by simpa using h)

theorem mem_vget_exists (l : List TimerEntry) (x : TimerEntry) (h : x ∈ l) :
    ∃ i, i < l.length ∧ vget l i = x := by
  induction l with
  | nil => exact absurd h (by simp)
  | cons y ys ih =>
    rcases List.mem_cons.mp h with h1 | h1
    · exact ⟨0, by simp, h1.symm⟩
    · rcases ih h1 with ⟨i, hi, he⟩
      exact ⟨i + 1, by simpa using hi, he⟩

/-! ### The binary min-heap invariant -/

/-- The heap invariant `std::priority_queue` maintains on the first `len`
entries of its vector: no parent compares greater (`TimerEntry::operator>`,
i.e. by expiry) than either of its children. -/
def IsHeap (c : List TimerEntry) (len : Nat) : Prop :=
  ∀ i, 0 < i → i < len → (vget c ((i - 1) / 2)).expire ≤ (vget c i).expire

/-- In a min-heap the root is due no later than any stored entry. -/
theorem root_min (c : List TimerEntry) (len : Nat) (hh : IsHeap c len) :
    ∀ i, i < len → (vget c 0).expire ≤ (vget c i).expire := by
  intro i
  induction i using Nat.strong_induction_on with
  | _ i ih =>
    intro hi
    rcases Nat.eq_zero_or_pos i with h0 | h0
    · subst h0; exact le_refl _
    · exact le_trans (ih ((i - 1) / 2) (by omega) (by omega)) (hh i h0 hi)

/-! ### Element-containment of the heap operations -/

theorem pushHeapAux_subset :
    ∀ (fuel : Nat) (c : List TimerEntry) (hole top : Nat) (v : TimerEntry),
      hole < c.length →
      ∀ x, x ∈ pushHeapAux c hole top v fuel → x ∈ c ∨ x = v := by
  intro fuel
  induction fuel with
  | zero => intro c hole top v _ x hx; exact mem_vset _ _ _ _ hx
  | succ f ih =>
    intro c hole top v hlt x hx
    simp only [pushHeapAux] at hx
    by_cases hc : (decide (top < hole) && timerGT (vget c ((hole - 1) / 2)) v) = true
    · rw [if_pos hc] at hx
      have hole_pos : 0 < hole := by
        rcases Bool.and_eq_true_iff.mp hc with ⟨h1, _⟩
        have := of_decide_eq_true h1
        omega
      have hmem := ih (vset c hole (vget c ((hole - 1) / 2))) ((hole - 1) / 2) top v
        (by rw [vset_length]; omega) x hx
      rcases hmem with h1 | h1
      · rcases mem_vset _ _ _ _ h1 with h2 | h2
        · exact Or.inl h2
        · exact Or.inl (h2 ▸ vget_mem _ _ (by omega))
      · exact Or.inr h1
    · rw [if_neg hc] at hx
      exact mem_vset _ _ _ _ hx

theorem pushHeapAux_length :
    ∀ (fuel : Nat) (c : List TimerEntry) (hole top : Nat) (v : TimerEntry),
      (pushHeapAux c hole top v fuel).length = c.length := by
  intro fuel
  induction fuel with
  | zero => intro c hole top v; exact vset_length _ _ _
  | succ f ih =>
    intro c hole top v
    simp only [pushHeapAux]
    by_cases hc : (decide (top < hole) && timerGT (vget c ((hole - 1) / 2)) v) = true
    · rw [if_pos hc, ih, vset_length]
    · rw [if_neg hc]; exact vset_length _ _ _

theorem adjustLoop_facts :
    ∀ (fuel : Nat) (c : List TimerEntry) (hole len : Nat),
      hole < len → len ≤ c.length →
      ((adjustLoop c hole len fuel).1.length = c.length ∧
       (adjustLoop c hole len fuel).2 < len ∧
       ∀ x, x ∈ (adjustLoop c hole len fuel).1 → x ∈ c) := by
  intro fuel
  induction fuel with
  | zero => intro c hole len h1 _; exact ⟨rfl, h1, fun _ hx => hx⟩
  | succ f ih =>
    intro c hole len h1 h2
    simp only [adjustLoop]
    by_cases hc : hole < (len - 1) / 2
    · rw [if_pos hc]
      by_cases hcc : timerGT (vget c (2 * (hole + 1))) (vget c (2 * (hole + 1) - 1)) = true
      · rw [if_pos hcc]
        have hb : 2 * (hole + 1) - 1 < len := by omega
        obtain ⟨e1, e2, e3⟩ := ih (vset c hole (vget c (2 * (hole + 1) - 1)))
          (2 * (hole + 1) - 1) len hb (by rw [vset_length]; omega)
        refine ⟨by rw [e1, vset_length], e2, fun x hx => ?_⟩
        rcases mem_vset _ _ _ _ (e3 x hx) with h3 | h3
        · exact h3
        · exact h3 ▸ vget_mem _ _ (by omega)
      · rw [if_neg hcc]
        have hb : 2 * (hole + 1) < len := by omega
        obtain ⟨e1, e2, e3⟩ := ih (vset c hole (vget c (2 * (hole + 1))))
          (2 * (hole + 1)) len hb (by rw [vset_length]; omega)
        refine ⟨by rw [e1, vset_length], e2, fun x hx => ?_⟩
        rcases mem_vset _ _ _ _ (e3 x hx) with h3 | h3
        · exact h3
        · exact h3 ▸ vget_mem _ _ (by omega)
    · rw [if_neg hc]
      exact ⟨rfl, h1, fun _ hx => hx⟩

theorem adjustHeap_subset (c : List TimerEntry) (len : Nat) (value : TimerEntry)
    (h0 : 0 < len) (hlen : len ≤ c.length) :
    (adjustHeap c 0 len value).length = c.length ∧
    ∀ x, x ∈ adjustHeap c 0 len value → x ∈ c ∨ x = value := by
  unfold adjustHeap
  obtain ⟨hL, hh, hsub⟩ := adjustLoop_facts len c 0 len h0 hlen
  by_cases he : (len % 2 == 0 && (adjustLoop c 0 len len).2 == (len - 2) / 2) = true
  · rw [if_pos he]
    rcases Bool.and_eq_true_iff.mp he with ⟨he1, he2⟩
    have e1 : len % 2 = 0 := by simpa using he1
    have e2 : (adjustLoop c 0 len len).2 = (len - 2) / 2 := by simpa using he2
    have heq : 2 * ((adjustLoop c 0 len len).2 + 1) - 1 < len := by omega
    constructor
    · rw [pushHeapAux_length, vset_length, hL]
    · intro x hx
      have hblt : 2 * ((adjustLoop c 0 len len).2 + 1) - 1 <
          (vset (adjustLoop c 0 len len).1 (adjustLoop c 0 len len).2
            (vget (adjustLoop c 0 len len).1 (2 * ((adjustLoop c 0 len len).2 + 1) - 1))).length := by
        rw [vset_length, hL]; omega
      rcases pushHeapAux_subset len _ _ 0 value hblt x hx with h3 | h3
      · rcases mem_vset _ _ _ _ h3 with h4 | h4
        · exact Or.inl (hsub x h4)
        · exact Or.inl (hsub _ (h4 ▸ vget_mem _ _ (by rw [hL]; omega)))
      · exact Or.inr h3
  · rw [if_neg he]
    constructor
    · rw [pushHeapAux_length]; exact hL
    · intro x hx
      rcases pushHeapAux_subset len _ _ 0 value (by rw [hL]; omega) x hx with h3 | h3
      · exact Or.inl (hsub x h3)
      · exact Or.inr h3

/-! ### Heap-invariant preservation

The libstdc++ sift routines move a hole through the vector and finally
write the displaced `value` into it.  The invariants carried below: edges
not touching the hole satisfy the heap property; every child of the hole is
due no earlier than `value` and (for the sift-up) no earlier than the
hole's parent. -/

theorem pushHeapAux_heap :
    ∀ (fuel : Nat) (c : List TimerEntry) (hole : Nat) (v : TimerEntry) (len : Nat),
      hole < len → len ≤ c.length → hole < fuel →
      (∀ i, 0 < i → i < len → i ≠ hole → (i - 1) / 2 ≠ hole →
        (vget c ((i - 1) / 2)).expire ≤ (vget c i).expire) →
      (∀ i, 0 < i → i < len → (i - 1) / 2 = hole → v.expire ≤ (vget c i).expire) →
      (∀ i, 0 < i → i < len → (i - 1) / 2 = hole → 0 < hole →
        (vget c ((hole - 1) / 2)).expire ≤ (vget c i).expire) →
      IsHeap (pushHeapAux c hole 0 v fuel) len := by
  intro fuel
  induction fuel with
  | zero => intro c hole v len _ _ hf _ _ _; omega
  | succ f ih =>
    intro c hole v len hlt hlen hf hh1 hh2 hh3
    simp only [pushHeapAux]
    by_cases hc : (decide (0 < hole) && timerGT (vget c ((hole - 1) / 2)) v) = true
    · rw [if_pos hc]
      rcases Bool.and_eq_true_iff.mp hc with ⟨hc1, hc2⟩
      have hpos : 0 < hole := of_decide_eq_true hc1
      have hgt : v.expire < (vget c ((hole - 1) / 2)).expire := by
        simpa [timerGT] using hc2
      apply ih (vset c hole (vget c ((hole - 1) / 2))) ((hole - 1) / 2) v len
        (by omega) (by rw [vset_length]; omega) (by omega)
      · -- edges not touching the new hole
        intro i hi0 hilen hip hipp
        by_cases hih : i = hole
        · exact absurd (by rw [hih]) hipp
        · rw [vget_vset_ne _ _ _ _ hih]
          by_cases hqh : (i - 1) / 2 = hole
          · rw [hqh, vget_vset_self _ _ _ (by omega)]
            exact hh3 i hi0 hilen hqh hpos
          · rw [vget_vset_ne _ _ _ _ hqh]
            exact hh1 i hi0 hilen hih hqh
      · -- children of the new hole are due no earlier than the value
        intro i hi0 hilen hipp
        by_cases hih : i = hole
        · rw [hih, vget_vset_self _ _ _ (by omega)]
          exact le_of_lt hgt
        · rw [vget_vset_ne _ _ _ _ hih]
          have hedge : (vget c ((i - 1) / 2)).expire ≤ (vget c i).expire :=
            hh1 i hi0 hilen hih (by rw [hipp]; omega)
          rw [hipp] at hedge
          exact le_trans (le_of_lt hgt) hedge
      · -- children of the new hole are due no earlier than its parent
        intro i hi0 hilen hipp hppos
        rw [vget_vset_ne _ _ _ _ (by omega : ((hole - 1) / 2 - 1) / 2 ≠ hole)]
        have hedgeP : (vget c (((hole - 1) / 2 - 1) / 2)).expire ≤
            (vget c ((hole - 1) / 2)).expire :=
          hh1 ((hole - 1) / 2) hppos (by omega) (by omega) (by omega)
        by_cases hih : i = hole
        · rw [hih, vget_vset_self _ _ _ (by omega)]
          exact hedgeP
        · rw [vget_vset_ne _ _ _ _ hih]
          have hedgeI : (vget c ((i - 1) / 2)).expire ≤ (vget c i).expire :=
            hh1 i hi0 hilen hih (by rw [hipp]; omega)
          rw [hipp] at hedgeI
          exact le_trans hedgeP hedgeI
    · rw [if_neg hc]
      intro i hi0 hilen
      have hstop : hole = 0 ∨ (vget c ((hole - 1) / 2)).expire ≤ v.expire := by
        by_cases h0 : 0 < hole
        · right
          by_contra hlt2
          push_neg at hlt2
          exact hc (by simp [timerGT, h0, hlt2])
        · left; omega
      by_cases hih : i = hole
      · subst hih
        rcases hstop with h0 | hstop2
        · omega
        · rw [vget_vset_self _ _ _ (by omega), vget_vset_ne _ _ _ _ (by omega)]
          exact hstop2
      · rw [vget_vset_ne _ _ _ _ hih]
        by_cases hqh : (i - 1) / 2 = hole
        · rw [hqh, vget_vset_self _ _ _ (by omega)]
          exact hh2 i hi0 hilen hqh
        · rw [vget_vset_ne _ _ _ _ hqh]
          exact hh1 i hi0 hilen hih hqh

theorem pqPush_length (c : List TimerEntry) (v : TimerEntry) :
    (pqPush c v).length = c.length + 1 := by
  unfold pqPush
  rw [pushHeapAux_length]
  simp

/-- `priority_queue::push` keeps the vector a min-heap. -/
theorem pqPush_heap (c : List TimerEntry) (v : TimerEntry)
    (hh : IsHeap c c.length) : IsHeap (pqPush c v) (c.length + 1) := by
  unfold pqPush
  apply pushHeapAux_heap (c.length + 1) (c ++ [v]) c.length v (c.length + 1)
    (by omega) (by simp) (by omega)
  · intro i hi0 hilen hih _
    have hi2 : i < c.length := by omega
    have hp2 : (i - 1) / 2 < c.length := by omega
    rw [vget_append_lt _ _ _ hi2, vget_append_lt _ _ _ hp2]
    exact hh i hi0 hi2
  · intro i hi0 hilen hipp
    omega
  · intro i hi0 hilen hipp _
    omega

theorem adjustLoop_heap :
    ∀ (fuel : Nat) (c : List TimerEntry) (hole len : Nat),
      hole < len → len ≤ c.length → len - hole ≤ fuel →
      (∀ i, 0 < i → i < len → i ≠ hole → (i - 1) / 2 ≠ hole →
        (vget c ((i - 1) / 2)).expire ≤ (vget c i).expire) →
      (∀ i, 0 < i → i < len → (i - 1) / 2 = hole → 0 < hole →
        (vget c ((hole - 1) / 2)).expire ≤ (vget c i).expire) →
      (¬ ((adjustLoop c hole len fuel).2 < (len - 1) / 2)) ∧
      hole ≤ (adjustLoop c hole len fuel).2 ∧
      (∀ i, 0 < i → i < len → i ≠ (adjustLoop c hole len fuel).2 →
        (i - 1) / 2 ≠ (adjustLoop c hole len fuel).2 →
        (vget (adjustLoop c hole len fuel).1 ((i - 1) / 2)).expire ≤
          (vget (adjustLoop c hole len fuel).1 i).expire) ∧
      (∀ i, 0 < i → i < len → (i - 1) / 2 = (adjustLoop c hole len fuel).2 →
        0 < (adjustLoop c hole len fuel).2 →
        (vget (adjustLoop c hole len fuel).1 (((adjustLoop c hole len fuel).2 - 1) / 2)).expire ≤
          (vget (adjustLoop c hole len fuel).1 i).expire) := by
  intro fuel
  induction fuel with
  | zero => intro c hole len h1 _ h3 _ _; exact ((by omega : False)).elim
  | succ f ih =>
    intro c hole len h1 h2 h3 r1 r3
    simp only [adjustLoop]
    by_cases hc : hole < (len - 1) / 2
    · rw [if_pos hc]
      by_cases hcc : timerGT (vget c (2 * (hole + 1))) (vget c (2 * (hole + 1) - 1)) = true
      · -- pick the left child 2*hole+1
        rw [if_pos hcc]
        have hminc : (vget c (2 * (hole + 1) - 1)).expire ≤ (vget c (2 * (hole + 1))).expire :=
          le_of_lt (by simpa [timerGT] using hcc)
        have hE1 : ∀ i, 0 < i → i < len → i ≠ 2 * (hole + 1) - 1 →
            (i - 1) / 2 ≠ 2 * (hole + 1) - 1 →
            (vget (vset c hole (vget c (2 * (hole + 1) - 1))) ((i - 1) / 2)).expire ≤
              (vget (vset c hole (vget c (2 * (hole + 1) - 1))) i).expire := by
          intro i hi0 hilen hip hipp
          by_cases hih : i = hole
          · subst hih
            rw [vget_vset_self _ _ _ (by omega),
              vget_vset_ne _ _ _ _ (by omega : (i - 1) / 2 ≠ i)]
            exact r3 (2 * (i + 1) - 1) (by omega) (by omega) (by omega) hi0
          · rw [vget_vset_ne _ _ _ _ hih]
            by_cases hqh : (i - 1) / 2 = hole
            · rw [hqh, vget_vset_self _ _ _ (by omega)]
              have hio : i = 2 * (hole + 1) := by omega
              rw [hio]
              exact hminc
            · rw [vget_vset_ne _ _ _ _ hqh]
              exact r1 i hi0 hilen hih hqh
        have hE3 : ∀ i, 0 < i → i < len → (i - 1) / 2 = 2 * (hole + 1) - 1 →
            0 < 2 * (hole + 1) - 1 →
            (vget (vset c hole (vget c (2 * (hole + 1) - 1)))
                ((2 * (hole + 1) - 1 - 1) / 2)).expire ≤
              (vget (vset c hole (vget c (2 * (hole + 1) - 1))) i).expire := by
          intro i hi0 hilen hipp _
          have hpar : (2 * (hole + 1) - 1 - 1) / 2 = hole := by omega
          rw [hpar, vget_vset_self _ _ _ (by omega),
            vget_vset_ne _ _ _ _ (by omega : i ≠ hole)]
          have hr := r1 i hi0 hilen (by omega) (by omega)
          rw [hipp] at hr
          exact hr
        obtain ⟨g1, g2, g3, g4⟩ := ih (vset c hole (vget c (2 * (hole + 1) - 1)))
          (2 * (hole + 1) - 1) len (by omega) (by rw [vset_length]; omega) (by omega) hE1 hE3
        exact ⟨g1, by omega, g3, g4⟩
      · -- pick the right child 2*hole+2
        rw [if_neg hcc]
        have hminc : (vget c (2 * (hole + 1))).expire ≤ (vget c (2 * (hole + 1) - 1)).expire := by
          have := (not_iff_not.mpr (show timerGT (vget c (2 * (hole + 1)))
              (vget c (2 * (hole + 1) - 1)) = true ↔
              (vget c (2 * (hole + 1) - 1)).expire < (vget c (2 * (hole + 1))).expire by
            simp [timerGT])).mp hcc
          omega
        have hE1 : ∀ i, 0 < i → i < len → i ≠ 2 * (hole + 1) →
            (i - 1) / 2 ≠ 2 * (hole + 1) →
            (vget (vset c hole (vget c (2 * (hole + 1)))) ((i - 1) / 2)).expire ≤
              (vget (vset c hole (vget c (2 * (hole + 1)))) i).expire := by
          intro i hi0 hilen hip hipp
          by_cases hih : i = hole
          · subst hih
            rw [vget_vset_self _ _ _ (by omega),
              vget_vset_ne _ _ _ _ (by omega : (i - 1) / 2 ≠ i)]
            exact r3 (2 * (i + 1)) (by omega) (by omega) (by omega) hi0
          · rw [vget_vset_ne _ _ _ _ hih]
            by_cases hqh : (i - 1) / 2 = hole
            · rw [hqh, vget_vset_self _ _ _ (by omega)]
              have hio : i = 2 * (hole + 1) - 1 := by omega
              rw [hio]
              exact hminc
            · rw [vget_vset_ne _ _ _ _ hqh]
              exact r1 i hi0 hilen hih hqh
        have hE3 : ∀ i, 0 < i → i < len → (i - 1) / 2 = 2 * (hole + 1) →
            0 < 2 * (hole + 1) →
            (vget (vset c hole (vget c (2 * (hole + 1)))) ((2 * (hole + 1) - 1) / 2)).expire ≤
              (vget (vset c hole (vget c (2 * (hole + 1)))) i).expire := by
          intro i hi0 hilen hipp _
          have hpar : (2 * (hole + 1) - 1) / 2 = hole := by omega
          rw [hpar, vget_vset_self _ _ _ (by omega),
            vget_vset_ne _ _ _ _ (by omega : i ≠ hole)]
          have hr := r1 i hi0 hilen (by omega) (by omega)
          rw [hipp] at hr
          exact hr
        obtain ⟨g1, g2, g3, g4⟩ := ih (vset c hole (vget c (2 * (hole + 1))))
          (2 * (hole + 1)) len (by omega) (by rw [vset_length]; omega) (by omega) hE1 hE3
        exact ⟨g1, by omega, g3, g4⟩
    · rw [if_neg hc]
      exact ⟨hc, le_refl _, r1, r3⟩

/-- `std::__adjust_heap` restores the heap property on the prefix of length
`len` when started with the hole at the root. -/
theorem adjustHeap_heap (c : List TimerEntry) (len : Nat) (value : TimerEntry)
    (h0 : 0 < len) (hlen : len ≤ c.length)
    (hh1 : ∀ i, 0 < i → i < len → (i - 1) / 2 ≠ 0 →
      (vget c ((i - 1) / 2)).expire ≤ (vget c i).expire) :
    IsHeap (adjustHeap c 0 len value) len := by
  unfold adjustHeap
  obtain ⟨hexit, _, r1, r3⟩ := adjustLoop_heap len c 0 len h0 hlen (by omega)
    (fun i hi0 hilen _ hipp => hh1 i hi0 hilen hipp)
    (fun i _ _ _ h => absurd h (lt_irrefl 0))
  obtain ⟨haL, hh2, _⟩ := adjustLoop_facts len c 0 len h0 hlen
  by_cases he : (len % 2 == 0 && (adjustLoop c 0 len len).2 == (len - 2) / 2) = true
  · rw [if_pos he]
    rcases Bool.and_eq_true_iff.mp he with ⟨he1, he2⟩
    have e1 : len % 2 = 0 := by simpa using he1
    have e2 : (adjustLoop c 0 len len).2 = (len - 2) / 2 := by simpa using he2
    have hlen2 : 2 ≤ len := by omega
    have hnh : 2 * ((adjustLoop c 0 len len).2 + 1) - 1 = len - 1 := by omega
    apply pushHeapAux_heap len _ _ value len (by omega)
      (by rw [vset_length, haL]; omega) (by omega)
    · intro i hi0 hilen hip hipp
      by_cases hih : i = (adjustLoop c 0 len len).2
      · rw [hih, hnh, vget_vset_self _ _ _ (by rw [haL]; omega),
          vget_vset_ne _ _ _ _
            (by omega : ((adjustLoop c 0 len len).2 - 1) / 2 ≠ (adjustLoop c 0 len len).2)]
        exact r3 (len - 1) (by omega) (by omega) (by omega) (by omega)
      · rw [vget_vset_ne _ _ _ _ hih]
        by_cases hqh : (i - 1) / 2 = (adjustLoop c 0 len len).2
        · exact absurd (by omega : i = 2 * ((adjustLoop c 0 len len).2 + 1) - 1) hip
        · rw [vget_vset_ne _ _ _ _ hqh]
          exact r1 i hi0 hilen hih hqh
    · intro i hi0 hilen hipp
      omega
    · intro i hi0 hilen hipp _
      omega
  · rw [if_neg he]
    have he2 : ¬ (len % 2 = 0 ∧ (adjustLoop c 0 len len).2 = (len - 2) / 2) := by
      intro ⟨a, b⟩
      exact he (by simp [a, b])
    apply pushHeapAux_heap len _ _ value len hh2 (by rw [haL]; omega) (by omega)
    · exact r1
    · intro i hi0 hilen hipp
      omega
    · intro i hi0 hilen hipp _
      omega

/-- `priority_queue::pop` keeps the remaining vector a min-heap. -/
theorem pqPop_heap (c : List TimerEntry) (hh : IsHeap c c.length) :
    IsHeap (pqPop c) (pqPop c).length := by
  unfold pqPop
  by_cases hl : 1 < c.length
  · rw [if_pos hl]
    have hlen1 : (vset c (c.length - 1) (vget c 0)).length = c.length :=
      vset_length _ _ _
    have hstep : IsHeap
        (adjustHeap (vset c (c.length - 1) (vget c 0)) 0 (c.length - 1)
          (vget c (c.length - 1))) (c.length - 1) := by
      apply adjustHeap_heap _ _ _ (by omega) (by omega)
      intro i hi0 hilen _
      rw [vget_vset_ne _ _ _ _ (by omega), vget_vset_ne _ _ _ _ (by omega)]
      exact hh i hi0 (by omega)
    obtain ⟨haL, _⟩ := adjustHeap_subset (vset c (c.length - 1) (vget c 0))
      (c.length - 1) (vget c (c.length - 1)) (by omega) (by omega)
    intro i hi0 hilen
    rw [List.length_dropLast, haL, hlen1] at hilen
    rw [vget_dropLast _ _ (by rw [haL, hlen1]; omega),
      vget_dropLast _ _ (by rw [haL, hlen1]; omega)]
    exact hstep i hi0 hilen
  · rw [if_neg hl]
    intro i hi0 hilen
    rw [List.length_dropLast] at hilen
    omega

theorem pqPop_subset (c : List TimerEntry) :
    (∀ x, x ∈ pqPop c → x ∈ c) ∧ (pqPop c).length = c.length - 1 := by
  unfold pqPop
  by_cases hl : 1 < c.length
  · rw [if_pos hl]
    have hlen1 : (vset c (c.length - 1) (vget c 0)).length = c.length :=
      vset_length _ _ _
    obtain ⟨haL, hsub⟩ := adjustHeap_subset (vset c (c.length - 1) (vget c 0))
      (c.length - 1) (vget c (c.length - 1)) (by omega) (by omega)
    constructor
    · intro x hx
      rcases hsub x (List.dropLast_subset _ hx) with h1 | h1
      · rcases mem_vset _ _ _ _ h1 with h2 | h2
        · exact h2
        · exact h2 ▸ vget_mem _ _ (by omega)
      · exact h1 ▸ vget_mem _ _ (by omega)
    · rw [List.length_dropLast, haL, hlen1]
  · rw [if_neg hl]
    exact ⟨fun x hx => List.dropLast_subset _ hx, by rw [List.length_dropLast]⟩

theorem pqPopAll_subset :
    ∀ (fuel : Nat) (c : List TimerEntry) (x : TimerEntry),
      x ∈ pqPopAll fuel c → x ∈ c := by
  intro fuel
  induction fuel with
  | zero => intro c x hx; exact absurd hx (by simp [pqPopAll])
  | succ f ih =>
    intro c x hx
    cases c with
    | nil => exact absurd hx (by simp [pqPopAll])
    | cons t rest =>
      simp only [pqPopAll] at hx
      rcases List.mem_cons.mp hx with h1 | h1
      · exact h1 ▸ List.mem_cons_self _ _
      · exact (pqPop_subset (t :: rest)).1 x (ih _ x h1)

/-- Draining a min-heap yields the entries in nondecreasing expiry order. -/
theorem pqPopAll_sorted :
    ∀ (fuel : Nat) (c : List TimerEntry), IsHeap c c.length →
      List.Pairwise (fun a b => a.expire ≤ b.expire) (pqPopAll fuel c) := by
  intro fuel
  induction fuel with
  | zero => intro c _; simp [pqPopAll]
  | succ f ih =>
    intro c hh
    cases hc : c with
    | nil => simp [pqPopAll]
    | cons t rest =>
      show List.Pairwise _ (t :: pqPopAll f (pqPop (t :: rest)))
      refine List.Pairwise.cons ?_ (ih _ (hc ▸ pqPop_heap c hh))
      intro y hy
      have hy2 : y ∈ c := by
        rw [hc]
        exact (pqPop_subset (t :: rest)).1 y (pqPopAll_subset f _ y hy)
      obtain ⟨i, hi, he⟩ := mem_vget_exists c y hy2
      have hroot := root_min c c.length hh i hi
      have ht : vget c 0 = t := by rw [hc]; rfl
      rw [← he, ← ht]
      exact hroot

/-- Modelled from the spec: the timers a program registers with the
scheduler through `Loop::add_timer`, applied in registration order to the
initially empty queue. -/
def registerAll (entries : List (Nat × Nat)) : List TimerEntry :=
  entries.foldl (fun c p => addTimer c p.1 p.2) []

theorem registerAll_heap (entries : List (Nat × Nat)) :
    IsHeap (registerAll entries) (registerAll entries).length := by
  unfold registerAll
  suffices h : ∀ c : List TimerEntry, IsHeap c c.length →
      IsHeap (entries.foldl (fun c p => addTimer c p.1 p.2) c)
        (entries.foldl (fun c p => addTimer c p.1 p.2) c).length by
    exact h [] (fun i _ hilen => absurd hilen (by simp))
  induction entries with
  | nil => intro c hcc; exact hcc
  | cons e es ihe =>
    intro c hcc
    simp only [List.foldl]
    apply ihe
    have hlen : (addTimer c e.1 e.2).length = c.length + 1 := pqPush_length _ _
    rw [hlen]
    exact pqPush_heap c _ hcc

/-- C7 (amended): timer entries fire in nondecreasing order of expiry for
any set of registered timers — in particular two timers with expiries
`t1 < t2` inserted in reverse order (`t2` first) fire `t1`'s frame before
`t2`'s — but entries with equal expiry fire in binary heap pop order, which
can differ from their insertion order. -/
theorem timer_strict_order :
    (∀ entries : List (Nat × Nat),
      List.Pairwise (fun a b => a.expire ≤ b.expire)
        (pqPopAll (registerAll entries).length (registerAll entries))) ∧
    (∀ t1 t2 h1 h2 : Nat, t1 < t2 →
      fireOrder (addTimer (addTimer [] t2 h2) t1 h1) = [h1, h2]) := by
  constructor
  · intro entries
    exact pqPopAll_sorted _ _ (registerAll_heap entries)
  · intro t1 t2 h1 h2 hlt
    have hgt : timerGT { expire := t2, handle := h2 } { expire := t1, handle := h1 } = true := by
      simp [timerGT]; omega
    simp [fireOrder, addTimer, pqPush, pushHeapAux, vget, vset, pqPopAll, pqPop,
      adjustHeap, adjustLoop, hgt]

/-- Witness for C7 (amended): expiries 0 < 1 inserted in reverse order
fire handle 9 (expiry 0) before handle 7 (expiry 1). -/
theorem timer_strict_order_witness :
    0 < 1 ∧ fireOrder (addTimer (addTimer [] 1 7) 0 9) = [9, 7] :=
  ⟨by decide, timer_strict_order.2 0 1 9 7 (by decide)⟩

/-! ## C8: exclusive ownership by the `Task` handle -/

/-- A `Task` handle of src/code/simple-task.cc lines 169-231 and
src/unnamed/part_000 lines 166-207: it holds a coroutine handle that may be
null (after being moved from). -/
structure CppTask where
  coroutine : Option Nat
deriving DecidableEq, Repr

/-- The special member functions of `Task`. -/
inductive TaskMember where
  | copyCtor : TaskMember
  | copyAssign : TaskMember
  | moveCtor : TaskMember
  | moveAssign : TaskMember
deriving DecidableEq, Repr

/-- Which special members are `= delete` (src/code/simple-task.cc lines
190-191, src/unnamed/part_000 lines 175-176): both copy operations are
deleted; the move operations are user-defined. -/
def taskMemberDeleted : TaskMember → Bool
  | TaskMember.copyCtor => true
  | TaskMember.copyAssign => true
  | TaskMember.moveCtor => false
  | TaskMember.moveAssign => false

/-- `Task(Task&& other)` (src/code/simple-task.cc lines 197-199,
src/unnamed/part_000 line 179): steal `other.coroutine`, null `other` out.
Returns (constructed task, moved-from task). -/
def taskMoveCtor (other : CppTask) : CppTask × CppTask :=
  ({ coroutine := other.coroutine }, { coroutine := none })

/-- `~Task()` (src/code/simple-task.cc lines 220-224, src/unnamed/part_000
lines 194-198): `if (coroutine) coroutine.destroy();`.  Returns the list of
frames destroyed. -/
def taskDtor (t : CppTask) : List Nat :=
  match t.coroutine with
  | some h => [h]
  | none => []

/-- `Task& operator=(Task&& other)` for distinct objects
(src/code/simple-task.cc lines 205-214, src/unnamed/part_000 lines
182-191): destroy the currently owned frame if any, steal
`other.coroutine`, null `other` out.  Returns (assigned-to task,
moved-from task, frames destroyed). -/
def taskMoveAssign (self other : CppTask) : CppTask × CppTask × List Nat :=
  ({ coroutine := other.coroutine }, { coroutine := none }, taskDtor self)

/-- C8: a `Task` exclusively owns its frame: both copy operations are
deleted; move construction and move assignment transfer ownership (the
target ends up holding the source's frame and the source is emptied, move
assignment first releasing the target's own frame); and destruction
releases the owned frame exactly when one is present. -/
theorem task_exclusive_ownership :
    taskMemberDeleted TaskMember.copyCtor = true ∧
    taskMemberDeleted TaskMember.copyAssign = true ∧
    (∀ t : CppTask, (taskMoveCtor t).1.coroutine = t.coroutine ∧
      (taskMoveCtor t).2.coroutine = none) ∧
    (∀ s o : CppTask, (taskMoveAssign s o).1.coroutine = o.coroutine ∧
      (taskMoveAssign s o).2.1.coroutine = none ∧
      (taskMoveAssign s o).2.2 = taskDtor s) ∧
    (∀ (t : CppTask) (h : Nat), h ∈ taskDtor t ↔ t.coroutine = some h) := by
  refine ⟨rfl, rfl, fun t => ⟨rfl, rfl⟩, fun s o => ⟨rfl, rfl, rfl⟩, fun t h => ?_⟩
  cases ht : t.coroutine with
  | none => simp [taskDtor, ht]
  | some x => simp [taskDtor, ht, eq_comm]

end CoroTest
